import Mathlib

/-!
The `gcurl` tool: header parsing and request construction.

A shallow embedding of `main.go` of the `gcurl` command-line HTTP tool, and the
properties of its header parser (`NewHeaders`, `Headers.Parse`), of the
options-to-request translation (`Options.ToRequest`) and of the top-level driver
(`main`).

Go strings are modelled by Lean strings.  The only characters the program inspects
are ASCII (`,`, `"`, `=`, letters, digits, `-` and the other token characters), so
cutting a text at these characters is the same on characters and on UTF-8 bytes.

The functions of the Go standard library the program calls (`strings.Split`,
`strings.Replace`, `http.Header.Set`, `textproto.CanonicalMIMEHeaderKey`) are
modelled after their documented behaviour, and so is `http.NewRequest`, with the
parsing of the URL left open; `Options.ToRequest` and `main` take the constructor,
the HTTP client and the standard streams as parameters.
-/

namespace Gcurl

/-! ## The Go standard library functions used by the program -/

namespace strings

/-- The pieces of a text between the successive occurrences of the separator
character: a text with `n` separators has `n + 1` pieces, and the empty text has the
single piece `[]`. -/
def splitChars (sep : Char) : List Char → List (List Char)
  | [] => [[]]
  | c :: cs =>
    if c = sep then [] :: splitChars sep cs
    else (c :: (splitChars sep cs).headD []) :: (splitChars sep cs).tail

/-- Go `strings.Split(s, sep)` for a separator `sep` of one character (the program
calls it with `","` and with `"="`): `s` is cut at every occurrence of `sep`. -/
def Split (s : String) (sep : Char) : List String :=
  (splitChars sep s.data).map String.mk

/-- Go `strings.Replace(s, old, new, -1)` for an `old` of one character (the program
calls it with `old = "\""` and `new = ""`): every occurrence of `old` is replaced by
`new`. -/
def Replace (s : String) (old : Char) (new : String) : String :=
  String.mk (s.data.flatMap fun c => if c = old then new.data else [c])

end strings

namespace textproto

/-- Go `validHeaderFieldByte`: the characters of an HTTP token (RFC 7230): letters,
digits and the symbols listed. -/
def validHeaderFieldByte (c : Char) : Bool :=
  c.isAlphanum || "!#$%&'*+-.^_`|~".data.contains c

/-- The loop of Go `canonicalMIMEHeaderKey`: a letter is upper-cased when `upper` is
set and lower-cased otherwise; `upper` is set at the start and after each `-`. -/
def canonicalize (upper : Bool) : List Char → List Char
  | [] => []
  | c :: cs =>
    let c1 := if upper then c.toUpper else c.toLower
    c1 :: canonicalize (c1 == '-') cs

/-- Go `textproto.CanonicalMIMEHeaderKey`: a key with a character that is not valid
in a header field name (a space, a non-ASCII character, ...) is returned unchanged;
any other key is returned with the first letter and every letter after a hyphen in
upper case and all other letters in lower case. -/
def CanonicalMIMEHeaderKey (s : String) : String :=
  if s.data.all validHeaderFieldByte then String.mk (canonicalize true s.data) else s

end textproto

/-- Go `http.Header`, a `map[string][]string`, as an association list with at most
one entry per key.  A Go map has no order: the order of the list (that of the first
assignment of each key) is an artefact of the representation. -/
abbrev Header := List (String × List String)

namespace Header

/-- The Go map assignment `m[key] = values`: the entry of `key` is replaced when
there is one, added otherwise. -/
def assign : Header → String → List String → Header
  | [], key, values => [(key, values)]
  | (k, vs) :: rest, key, values =>
    if k = key then (key, values) :: rest else (k, vs) :: assign rest key values

/-- The Go map index `m[key]`; `none` when the map has no entry for `key`. -/
def index : Header → String → Option (List String)
  | [], _ => none
  | (k, vs) :: rest, key => if k = key then some vs else index rest key

/-- The keys of the map. -/
def keys (m : Header) : List String := m.map Prod.fst

/-- Go `http.Header.Set(key, value)`:
`h[CanonicalMIMEHeaderKey(key)] = []string{value}`. -/
def Set (m : Header) (key value : String) : Header :=
  assign m (textproto.CanonicalMIMEHeaderKey key) [value]

/-- Go `http.Header.Values(key)`: `h[CanonicalMIMEHeaderKey(key)]`, the values held
under the header name `key`; empty (Go `nil`) when there is none. -/
def Values (m : Header) (key : String) : List String :=
  (index m (textproto.CanonicalMIMEHeaderKey key)).getD []

end Header

/-! ## `main.go`: header parsing -/

/-- Headers is a slice of strings containing formatted header pairs. -/
abbrev Headers := List String

/-- NewHeaders returns a headers array: `strings.Split(input, ",")`. -/
def NewHeaders (input : String) : Headers :=
  strings.Split input ','

/-- The body of the loop of `Headers.Parse`: the quotes are removed from the line,
the line is cut at `=`, and with two parts or more the first is set to the second. -/
def Headers.parseLine (parsed : Header) (line : String) : Header :=
  let line := strings.Replace line '"' ""
  let parts := strings.Split line '='
  match parts with
  | name :: value :: _ => parsed.Set name value
  | _ => parsed

/-- Parse header list into a `http.Header` map that can be used in the request. -/
def Headers.Parse (h : Headers) : Header :=
  h.foldl Headers.parseLine []

/-- The name and the value a raw header pair carries, when it carries one: the first
two parts of the line, quotes removed, cut at `=`. -/
def Headers.pairOf (line : String) : Option (String × String) :=
  match strings.Split (strings.Replace line '"' "") '=' with
  | name :: value :: _ => some (name, value)
  | _ => none

/-- Go slice indexing `parts[i]` with its run-time bounds check: an index out of
range is a panic. -/
def indexChecked (parts : List String) (i : Nat) : Except String String :=
  match parts.get? i with
  | some part => .ok part
  | none => .error "index out of range"

/-- The loop body of `Headers.Parse` with the length test and the bounds checks of
the two slice indexings `parts[0]` and `parts[1]` written out. -/
def Headers.parseLineChecked (parsed : Header) (line : String) : Except String Header :=
  let line := strings.Replace line '"' ""
  let parts := strings.Split line '='
  if parts.length ≥ 2 then
    (indexChecked parts 0).bind fun name =>
    (indexChecked parts 1).bind fun value =>
    .ok (parsed.Set name value)
  else .ok parsed

/-- Parse with the run-time checks of Go written out: the result, or the panic. -/
def Headers.ParseChecked : Headers → Header → Except String Header
  | [], parsed => .ok parsed
  | line :: rest, parsed =>
    (Headers.parseLineChecked parsed line).bind fun parsed1 =>
    Headers.ParseChecked rest parsed1

/-! ## `main.go`: options and request -/

/-- The contents of a byte buffer or stream. -/
abbrev Bytes := List UInt8

/-- The bytes of a Go string. -/
def bytesOf (s : String) : Bytes := s.toUTF8.data.toList

/-- Options contains all of the application configuration passed by the user. -/
structure Options where
  Method : String
  URL : String
  Body : Bytes
  Headers : Headers
  deriving DecidableEq, Repr

/-- The fields of Go `http.Request` the program deals with: the method, the URL
(in its string form), the contents of the body and the header mapping. -/
structure Request where
  Method : String
  URL : String
  Body : Bytes
  Header : Header
  deriving DecidableEq, Repr

/-- Go `check(err, message)`: with an error (given by its text) it panics with
`fmt.Sprintf("%s: %v", message, err)`; without, it returns. -/
def check (err : Option String) (message : String) : Except String Unit :=
  match err with
  | some e => .error (message ++ ": " ++ e)
  | none => .ok ()

/-- ToRequest takes the request configuration and builds a http request from the
input.  `NewRequest` stands for Go `http.NewRequest`, which returns a request or an
error; the result is the request returned, or the value of the panic. -/
def Options.ToRequest (NewRequest : String → String → Bytes → Except String Request)
    (o : Options) : Except String Request :=
  match NewRequest o.Method o.URL o.Body with
  | .error err =>
    -- `request` is nil here: were `check` to return, setting its header would panic
    (check (some err) "Could not create request from options").bind fun _ =>
      .error "invalid memory address or nil pointer dereference"
  | .ok request =>
    (check none "Could not create request from options").bind fun _ =>
      .ok { request with Header := o.Headers.Parse }

/-! ## The constructor `http.NewRequest` of the Go standard library -/

namespace http

/-- The parts of the Go library that `http.NewRequest` relies on and that the model
leaves open. -/
structure Library where
  /-- The result of `url.Parse` on the text of a URL, with the empty port of the host
  removed as `http.NewRequest` does: the parsed URL (in its string form) or the
  error. -/
  parseURL : String → Except String String
  /-- The text of `fmt.Errorf("net/http: invalid method %q", method)`. -/
  invalidMethod : String → String

/-- Go `validMethod`: a method is a token, a non-empty text of token characters. -/
def validMethod (method : String) : Bool :=
  !(method == "") && method.data.all textproto.validHeaderFieldByte

/-- Go `http.NewRequest(method, url, body)`: an empty method means `GET`; a method
that is not a token and a URL that does not parse are errors; otherwise the request
has the method, the parsed URL, the body and a fresh, empty header mapping. -/
def NewRequest (lib : Library) (method url : String) (body : Bytes) :
    Except String Request :=
  let method := if method = "" then "GET" else method
  if !validMethod method then .error (lib.invalidMethod method)
  else
    match lib.parseURL url with
    | .error err => .error err
    | .ok u => .ok { Method := method, URL := u, Body := body, Header := [] }

/-- An example of a library, to run the model on concrete inputs: a URL with a space
in it does not parse, any other parses to itself. -/
def Library.sample : Library :=
  { parseURL := fun url =>
      if ' ' ∈ url.data then .error ("parse \"" ++ url ++ "\": invalid character in host name")
      else .ok url,
    invalidMethod := fun method => "net/http: invalid method \"" ++ method ++ "\"" }

end http

/-! ## `main.go`: the driver -/

/-- The values of the command-line flags after `flag.Parse()`. -/
structure Flags where
  method : String
  headers : String
  body : String
  stdin : Bool
  deriving DecidableEq, Repr

/-- The default values of the flags. -/
def Flags.defaults : Flags :=
  { method := "GET", headers := "\"Content-Type=application/json\"", body := "", stdin := false }

/-- A response of the HTTP client. -/
structure Response where
  Body : Bytes
  deriving DecidableEq, Repr

/-- The surroundings of one run of the program. -/
structure World where
  /-- The outcome of `io.Copy(buffer, os.Stdin)`: the bytes copied into the buffer, and
  the error. -/
  stdin : Bytes × Option String
  /-- The constructor `http.NewRequest`. -/
  NewRequest : String → String → Bytes → Except String Request
  /-- The client call `http.DefaultClient.Do`. -/
  Do : Request → Except String Response
  /-- The outcome of `io.Copy(os.Stdout, response.Body)`: the bytes written, and the
  error. -/
  copyOut : Response → Bytes × Option String

/-- What a run of the program does, in order. -/
inductive Event where
  /-- Text printed with `fmt.Println` or `fmt.Printf`. -/
  | print (text : String)
  /-- The call `flag.PrintDefaults()`. -/
  | printDefaults
  /-- Standard input is read to its end. -/
  | readStdin
  /-- `ToRequest` is called on the options. -/
  | toRequest (options : Options)
  /-- The request is handed to the HTTP client. -/
  | send (request : Request)
  /-- Bytes are written to standard output. -/
  | writeStdout (bytes : Bytes)
  /-- The deferred `response.Body.Close()`. -/
  | closeBody
  deriving DecidableEq, Repr

/-- How a run ends: `os.Exit` or a return from `main` (status 0), or a panic. -/
inductive Exit where
  | status (code : Nat)
  | panic (message : String)
  deriving DecidableEq, Repr

/-- A run of the program: what it did and how it ended. -/
structure Run where
  events : List Event
  exit : Exit
  deriving DecidableEq, Repr

/-- The function `main`, after `flag.Parse()`: `flags` are the flag values and `args`
the positional arguments (`flag.Args()`). -/
def main (flags : Flags) (args : List String) (w : World) : Run :=
  match args with
  | [] =>
    -- Make sure that the user passed a url
    { events := [.print "You must pass a url to request.\n",
                 .print "\t - Example: gcurl [OPTIONS] URL",
                 .printDefaults],
      exit := .status 1 }
  | url :: _ =>
    -- Build options object
    let options : Options :=
      { Method := flags.method, Headers := NewHeaders flags.headers, URL := url, Body := [] }
    let read : List Event × Except String Options :=
      if flags.stdin then
        ([.readStdin],
         (check w.stdin.2 "Error reading body from stdin").bind fun _ =>
           .ok { options with Body := w.stdin.1 })
      else
        ([],
         (check none "Error writing to body buffer").bind fun _ =>
           .ok { options with Body := bytesOf flags.body })
    match read.2 with
    | .error p => { events := read.1, exit := .panic p }
    | .ok options =>
      -- Make request and print response
      match options.ToRequest w.NewRequest with
      | .error p => { events := read.1 ++ [.toRequest options], exit := .panic p }
      | .ok request =>
        match w.Do request with
        | .error err =>
          { events := read.1 ++ [.toRequest options, .send request],
            exit := match check (some err) "Error in response" with
              | .error p => .panic p
              | .ok _ => .panic "invalid memory address or nil pointer dereference" }
        | .ok response =>
          { events := read.1 ++ [.toRequest options, .send request,
                                 .writeStdout (w.copyOut response).1, .closeBody],
            exit := match check (w.copyOut response).2 "Could copy response body to stdout" with
              | .error p => .panic p
              | .ok _ => .status 0 }

/-- The options on which a run called `ToRequest`. -/
def Run.handedToRequest (r : Run) : List Options :=
  r.events.filterMap fun e => match e with
    | .toRequest o => some o
    | _ => none

/-- The requests a run handed to the HTTP client. -/
def Run.sent (r : Run) : List Request :=
  r.events.filterMap fun e => match e with
    | .send q => some q
    | _ => none

/-! ## Notions used to state the properties -/

/-- The values of the pairs of `h` that carry the header name `n` up to
canonicalisation (the pairs whose name has the canonical key of `n`), in the order
of `h`. -/
def Headers.valuesOf (h : Headers) (n : String) : List String :=
  ((h.filterMap Headers.pairOf).filter fun p =>
    textproto.CanonicalMIMEHeaderKey p.1 = textproto.CanonicalMIMEHeaderKey n).map Prod.snd

/-- A text with every double quote removed. -/
def withoutQuotes (s : String) : String :=
  String.mk (s.data.filter fun c => c ≠ '"')

/-- The canonical form of a header name, read off the text: no lower-case letter at
the start or right after a `-` (`upper` tells whether the next character is at such
a place), no upper-case letter anywhere else. -/
def inCanonicalForm (upper : Bool) : List Char → Bool
  | [] => true
  | c :: cs => (if upper then !c.isLower else !c.isUpper) && inCanonicalForm (c == '-') cs

/-- A text made of token characters only. -/
def isToken (s : String) : Bool :=
  s.data.all textproto.validHeaderFieldByte

/-- A text with none of the characters `,`, `"` and `=`. -/
abbrev plainText (s : String) : Prop :=
  ',' ∉ s.data ∧ '"' ∉ s.data ∧ '=' ∉ s.data

/-- One pair of a header-list input: a left-hand side, a right-hand side when the
pair has a `=`, and whether the pair is wrapped in double quotes. -/
structure RawPair where
  quoted : Bool
  lhs : String
  rhs : Option String
  deriving DecidableEq, Repr

/-- The text of a pair: `lhs=rhs`, or `lhs` alone for a pair without `=`, between
double quotes when quoted. -/
def RawPair.text (p : RawPair) : String :=
  let inner := match p.rhs with
    | some v => p.lhs ++ "=" ++ v
    | none => p.lhs
  if p.quoted then "\"" ++ inner ++ "\"" else inner

/-- The entry a pair with a `=` stands for: the canonical key of its left-hand side
and the list of its right-hand side alone. -/
def RawPair.entry (p : RawPair) : Option (String × List String) :=
  p.rhs.map fun v => (textproto.CanonicalMIMEHeaderKey p.lhs, [v])

/-- The header-list input made of the given pairs, separated by commas. -/
def headerList (ps : List RawPair) : String :=
  ",".intercalate (ps.map RawPair.text)

/-- An example of surroundings, to run the model on concrete inputs: standard input
holds the two bytes of `hi`, the constructor rejects a method with a space in it and
accepts everything else, and the server answers with the bytes of the body it
received. -/
def World.sample : World :=
  { stdin := ([104, 105], none),
    NewRequest := fun method url body =>
      if ' ' ∈ method.data then .error ("net/http: invalid method " ++ method)
      else .ok { Method := method, URL := url, Body := body, Header := [("Stale", ["x"])] },
    Do := fun request => .ok { Body := request.Body },
    copyOut := fun response => (response.Body, none) }

/-- An example of surroundings with the constructor `http.NewRequest` over the sample
library: standard input is empty, and the server answers with the bytes of the body
it received. -/
def World.plain : World :=
  { stdin := ([], none),
    NewRequest := http.NewRequest http.Library.sample,
    Do := fun request => .ok { Body := request.Body },
    copyOut := fun response => (response.Body, none) }

end Gcurl

/-! ## Characters -/

namespace Gcurl

theorem toUpper_of_not_ascii (c : Char) (h : 128 ≤ c.toNat) : c.toUpper = c := by
  unfold Char.toUpper
  have hn : ¬ (c.toNat ≥ 97 ∧ c.toNat ≤ 122) := by omega
  simp only [hn, if_false]

theorem toLower_of_not_ascii (c : Char) (h : 128 ≤ c.toNat) : c.toLower = c := by
  unfold Char.toLower
  have hn : ¬ (c.toNat ≥ 65 ∧ c.toNat ≤ 90) := by omega
  simp only [hn, if_false]

theorem isLower_of_not_ascii (c : Char) (h : 128 ≤ c.toNat) : c.isLower = false := by
  unfold Char.isLower
  have hn : ¬ (c.val ≤ 122) := by
    intro h2
    have : c.toNat ≤ 122 := h2
    omega
  simp [hn]

theorem isUpper_of_not_ascii (c : Char) (h : 128 ≤ c.toNat) : c.isUpper = false := by
  unfold Char.isUpper
  have hn : ¬ (c.val ≤ 90) := by
    intro h2
    have : c.toNat ≤ 90 := h2
    omega
  simp [hn]

/-- A property of characters holds of all of them when it holds of the 128 ASCII
characters and of every character beyond. -/
theorem char_cases (P : Char → Prop) (hascii : ∀ n : Fin 128, P (Char.ofNat n))
    (hrest : ∀ c : Char, 128 ≤ c.toNat → P c) (c : Char) : P c := by
  by_cases h : c.toNat < 128
  · have := hascii ⟨c.toNat, h⟩
    simpa [Char.ofNat_toNat] using this
  · exact hrest c (by omega)

theorem toUpper_toUpper (c : Char) : c.toUpper.toUpper = c.toUpper := by
  refine char_cases (fun c => c.toUpper.toUpper = c.toUpper) (by decide) ?_ c
  intro c h
  simp [toUpper_of_not_ascii c h]

theorem toLower_toLower (c : Char) : c.toLower.toLower = c.toLower := by
  refine char_cases (fun c => c.toLower.toLower = c.toLower) (by decide) ?_ c
  intro c h
  simp [toLower_of_not_ascii c h]

theorem toLower_toUpper (c : Char) : c.toUpper.toLower = c.toLower := by
  refine char_cases (fun c => c.toUpper.toLower = c.toLower) (by decide) ?_ c
  intro c h
  simp [toUpper_of_not_ascii c h]

theorem not_isLower_toUpper (c : Char) : c.toUpper.isLower = false := by
  refine char_cases (fun c => c.toUpper.isLower = false) (by decide) ?_ c
  intro c h
  simp [toUpper_of_not_ascii c h, isLower_of_not_ascii c h]

theorem not_isUpper_toLower (c : Char) : c.toLower.isUpper = false := by
  refine char_cases (fun c => c.toLower.isUpper = false) (by decide) ?_ c
  intro c h
  simp [toLower_of_not_ascii c h, isUpper_of_not_ascii c h]

theorem valid_toUpper (c : Char) :
    textproto.validHeaderFieldByte c.toUpper = textproto.validHeaderFieldByte c := by
  refine char_cases
    (fun c => textproto.validHeaderFieldByte c.toUpper = textproto.validHeaderFieldByte c)
    (by decide) ?_ c
  intro c h
  simp [toUpper_of_not_ascii c h]

theorem valid_toLower (c : Char) :
    textproto.validHeaderFieldByte c.toLower = textproto.validHeaderFieldByte c := by
  refine char_cases
    (fun c => textproto.validHeaderFieldByte c.toLower = textproto.validHeaderFieldByte c)
    (by decide) ?_ c
  intro c h
  simp [toLower_of_not_ascii c h]

end Gcurl

/-! ## Cutting and cleaning texts -/

namespace Gcurl

namespace strings

theorem splitChars_ne_nil (sep : Char) (s : List Char) : splitChars sep s ≠ [] := by
  cases s with
  | nil => simp [splitChars]
  | cons c cs =>
    unfold splitChars
    split <;> simp

theorem splitChars_of_not_mem (sep : Char) (s : List Char) (h : sep ∉ s) :
    splitChars sep s = [s] := by
  induction s with
  | nil => rfl
  | cons c cs ih =>
    have hc : ¬ c = sep := fun e => h (by simp [e])
    have hcs : sep ∉ cs := fun e => h (List.mem_cons_of_mem _ e)
    simp [splitChars, hc, ih hcs]

theorem splitChars_append_sep (sep : Char) (a rest : List Char) (h : sep ∉ a) :
    splitChars sep (a ++ sep :: rest) = a :: splitChars sep rest := by
  induction a with
  | nil => simp [splitChars]
  | cons c cs ih =>
    have hc : ¬ c = sep := fun e => h (by simp [e])
    have hcs : sep ∉ cs := fun e => h (List.mem_cons_of_mem _ e)
    simp [splitChars, hc, ih hcs]

/-- Removing a character other than the separator commutes with cutting. -/
theorem splitChars_filter (sep q : Char) (hq : q ≠ sep) (s : List Char) :
    splitChars sep (s.filter (· ≠ q)) = (splitChars sep s).map (List.filter (· ≠ q)) := by
  induction s with
  | nil => rfl
  | cons c cs ih =>
    by_cases hcq : c = q
    · subst hcq
      have hne := splitChars_ne_nil sep cs
      simp only [ne_eq, not_true_eq_false, decide_False, Bool.false_eq_true,
        not_false_eq_true, List.filter_cons_of_neg, splitChars, hq, if_false, List.map_cons]
      rw [ih]
      cases hs : splitChars sep cs with
      | nil => exact absurd hs hne
      | cons p ps => simp
    · by_cases hcs : c = sep
      · subst hcs
        have hf : (c :: cs).filter (· ≠ q) = c :: cs.filter (· ≠ q) := by simp [hcq]
        rw [hf]
        simpa [splitChars] using ih
      · have hne := splitChars_ne_nil sep cs
        simp only [ne_eq, hcq, not_false_eq_true, decide_True, List.filter_cons_of_pos,
          splitChars, hcs, if_false, List.map_cons]
        rw [ih]
        cases hs : splitChars sep cs with
        | nil => exact absurd hs hne
        | cons p ps => simp [hcq]

theorem Replace_empty_data (s : String) (c : Char) :
    (Replace s c "").data = s.data.filter (· ≠ c) := by
  simp only [Replace]
  induction s.data with
  | nil => rfl
  | cons a as ih =>
    by_cases h : a = c
    · simp [List.flatMap_cons, h, ih]
    · simp [List.flatMap_cons, h, ih]

end strings

end Gcurl

/-! ## The mapping -/

namespace Gcurl

namespace Header

theorem index_assign (m : Header) (k : String) (v : List String) (k1 : String) :
    index (assign m k v) k1 = if k = k1 then some v else index m k1 := by
  induction m with
  | nil => simp [assign, index]
  | cons e rest ih =>
    obtain ⟨k0, v0⟩ := e
    by_cases h0 : k0 = k
    · subst h0
      by_cases h1 : k0 = k1 <;> simp [assign, index, h1]
    · by_cases h1 : k0 = k1
      · subst h1
        have : ¬ k = k0 := fun e => h0 e.symm
        simp [assign, index, h0, this]
      · simp [assign, index, h0, h1, ih]

theorem assign_of_not_mem (m : Header) (k : String) (v : List String) (h : k ∉ keys m) :
    assign m k v = m ++ [(k, v)] := by
  induction m with
  | nil => rfl
  | cons e rest ih =>
    obtain ⟨k0, v0⟩ := e
    have h0 : ¬ k0 = k := fun e => h (by simp [keys, e])
    have hr : k ∉ keys rest := fun e => h (by simp [keys] at e ⊢; exact Or.inr e)
    simp [assign, h0, ih hr]

theorem mem_keys_assign (m : Header) (k : String) (v : List String) (k1 : String)
    (h : k1 ∈ keys (assign m k v)) : k1 = k ∨ k1 ∈ keys m := by
  induction m with
  | nil => simpa [assign, keys] using h
  | cons e rest ih =>
    obtain ⟨k0, v0⟩ := e
    by_cases h0 : k0 = k
    · subst h0
      simp only [assign, if_true, keys, List.map_cons, List.mem_cons] at h ⊢
      rcases h with h | h
      · exact Or.inl h
      · exact Or.inr (Or.inr h)
    · simp only [assign, h0, if_false, keys, List.map_cons, List.mem_cons] at h ⊢
      rcases h with h | h
      · exact Or.inr (Or.inl h)
      · rcases ih h with h | h
        · exact Or.inl h
        · exact Or.inr (Or.inr h)

end Header

/-! ## One line of the header list -/

theorem parseLine_eq (m : Header) (line : String) :
    Headers.parseLine m line =
      match Headers.pairOf line with
      | some p => m.Set p.1 p.2
      | none => m := by
  unfold Headers.parseLine Headers.pairOf
  dsimp only
  generalize strings.Split (strings.Replace line '"' "") '=' = parts
  rcases parts with _ | ⟨a, _ | ⟨b, t⟩⟩ <;> rfl

theorem pairOf_of_no_eq (line : String) (h : '=' ∉ line.data) : Headers.pairOf line = none := by
  have h1 : '=' ∉ (strings.Replace line '"' "").data := by
    rw [strings.Replace_empty_data]
    exact fun e => h (List.mem_filter.mp e).1
  unfold Headers.pairOf strings.Split
  rw [strings.splitChars_of_not_mem _ _ h1]
  rfl

theorem Replace_Replace (line : String) (c : Char) :
    strings.Replace (strings.Replace line c "") c "" = strings.Replace line c "" := by
  have h := strings.Replace_empty_data (strings.Replace line c "") c
  rw [strings.Replace_empty_data line c, List.filter_filter] at h
  have h2 := strings.Replace_empty_data line c
  have : (strings.Replace (strings.Replace line c "") c "").data
      = (strings.Replace line c "").data := by
    rw [h, h2]
    congr 1
    funext x
    simp
  exact String.ext this

theorem Replace_quote (s : String) : strings.Replace s '"' "" = withoutQuotes s :=
  String.ext (strings.Replace_empty_data s '"')

theorem pairOf_unquote (line : String) :
    Headers.pairOf (strings.Replace line '"' "") = Headers.pairOf line := by
  unfold Headers.pairOf
  rw [Replace_Replace]

theorem parseLine_unquote (m : Header) (line : String) :
    Headers.parseLine m (strings.Replace line '"' "") = Headers.parseLine m line := by
  rw [parseLine_eq, parseLine_eq, pairOf_unquote]

/-- The pair carried by a line `name=value=...` or `name=value`: the texts before the
first `=` and between the first and the second, quotes removed. -/
theorem pairOf_of_parts (name value : String) (tail : List Char)
    (hn : '=' ∉ name.data) (hv : '=' ∉ value.data) (line : String)
    (hline : line.data = name.data ++ '=' :: value.data ∨
      line.data = name.data ++ '=' :: (value.data ++ '=' :: tail)) :
    Headers.pairOf line
      = some (strings.Replace name '"' "", strings.Replace value '"' "") := by
  have hn1 : '=' ∉ name.data.filter (· ≠ '"') := fun e => hn (List.mem_filter.mp e).1
  have hv1 : '=' ∉ value.data.filter (· ≠ '"') := fun e => hv (List.mem_filter.mp e).1
  have hq : ('=' : Char) ≠ '"' := by decide
  unfold Headers.pairOf strings.Split
  rw [strings.Replace_empty_data]
  rcases hline with hline | hline
  · rw [hline, List.filter_append, List.filter_cons_of_pos (by simp),
      strings.splitChars_append_sep _ _ _ hn1, strings.splitChars_of_not_mem _ _ hv1]
    simp only [List.map_cons, List.map_nil]
    congr 2
    · exact String.ext (by rw [strings.Replace_empty_data])
    · exact String.ext (by rw [strings.Replace_empty_data])
  · rw [hline, List.filter_append, List.filter_cons_of_pos (by simp),
      List.filter_append, List.filter_cons_of_pos (by simp),
      strings.splitChars_append_sep _ _ _ hn1, strings.splitChars_append_sep _ _ _ hv1]
    simp only [List.map_cons]
    congr 2
    · exact String.ext (by rw [strings.Replace_empty_data])
    · exact String.ext (by rw [strings.Replace_empty_data])

end Gcurl

/-! ## Properties of `Headers.Parse` -/

namespace Gcurl

theorem foldl_parseLine_filter (h : Headers) (m : Header) :
    (h.filter fun l => decide ('=' ∈ l.data)).foldl Headers.parseLine m
      = h.foldl Headers.parseLine m := by
  induction h generalizing m with
  | nil => rfl
  | cons l rest ih =>
    by_cases hl : '=' ∈ l.data
    · simp only [hl, decide_True, List.filter_cons_of_pos, List.foldl_cons, ih]
    · have hstep : Headers.parseLine m l = m := by
        rw [parseLine_eq, pairOf_of_no_eq l hl]
      simp only [hl, decide_False, Bool.false_eq_true, not_false_eq_true,
        List.filter_cons_of_neg, List.foldl_cons, hstep, ih]

theorem parseLineChecked_eq (m : Header) (line : String) :
    Headers.parseLineChecked m line = .ok (Headers.parseLine m line) := by
  unfold Headers.parseLineChecked Headers.parseLine
  dsimp only
  generalize strings.Split (strings.Replace line '"' "") '=' = parts
  rcases parts with _ | ⟨a, _ | ⟨b, t⟩⟩ <;> simp [indexChecked, Except.bind]

theorem ParseChecked_eq (h : Headers) (m : Header) :
    Headers.ParseChecked h m = .ok (h.foldl Headers.parseLine m) := by
  induction h generalizing m with
  | nil => rfl
  | cons l rest ih =>
    simp only [Headers.ParseChecked, parseLineChecked_eq, Except.bind, List.foldl_cons, ih]

/-- C3: a header string lacking `=` is silently dropped.  For every Headers sequence
`h`, Parse returns normally (with the bounds checks of Go written out it yields a
mapping, never a panic), and the mapping is that of `h` with every element that
contains no `=` removed; the inputs `"malformed"` and `malformed` yield a mapping
with no entry. -/
theorem Parse_drops_lines_without_eq (h : Headers) :
    Headers.ParseChecked h [] = .ok (Headers.Parse h) ∧
    Headers.Parse h = Headers.Parse (h.filter fun l => decide ('=' ∈ l.data)) ∧
    Headers.Parse (NewHeaders "\"malformed\"") = [] ∧
    Headers.Parse (NewHeaders "malformed") = [] := by
  refine ⟨ParseChecked_eq h [], ?_, by decide, by decide⟩
  exact (foldl_parseLine_filter h []).symm

theorem NewHeaders_unquote (s : String) :
    NewHeaders (strings.Replace s '"' "") = (NewHeaders s).map fun l => strings.Replace l '"' "" := by
  have hq : ('"' : Char) ≠ ',' := by decide
  unfold NewHeaders strings.Split
  rw [strings.Replace_empty_data, strings.splitChars_filter _ _ hq, List.map_map, List.map_map]
  apply List.map_congr_left
  intro l _
  exact String.ext (by simp [strings.Replace_empty_data])

theorem foldl_parseLine_unquote (h : Headers) (m : Header) :
    (h.map fun l => strings.Replace l '"' "").foldl Headers.parseLine m
      = h.foldl Headers.parseLine m := by
  induction h generalizing m with
  | nil => rfl
  | cons l rest ih =>
    simp only [List.map_cons, List.foldl_cons, parseLine_unquote, ih]

/-- C10: quoting is irrelevant to the result.  For every input string `s`,
`NewHeaders(s).Parse()` equals `NewHeaders(s1).Parse()` where `s1` is `s` with every
double quote removed; so the quotes do not protect a `,` or a `=` inside a pair:
`"Accept=a,b"` is cut at the comma exactly as `Accept=a,b` is, which gives
`Accept -> a` and drops `b`. -/
theorem Parse_ignores_quotes (s : String) :
    Headers.Parse (NewHeaders s) = Headers.Parse (NewHeaders (withoutQuotes s)) ∧
    withoutQuotes "\"Accept=a,b\"" = "Accept=a,b" ∧
    NewHeaders "\"Accept=a,b\"" = ["\"Accept=a", "b\""] ∧
    NewHeaders "Accept=a,b" = ["Accept=a", "b"] ∧
    Headers.Parse (NewHeaders "\"Accept=a,b\"") = [("Accept", ["a"])] ∧
    Headers.Parse (NewHeaders "Accept=a,b") = [("Accept", ["a"])] := by
  refine ⟨?_, by decide, by decide, by decide, by decide, by decide⟩
  rw [← Replace_quote, NewHeaders_unquote]
  exact (foldl_parseLine_unquote (NewHeaders s) []).symm

end Gcurl

/-! ## Duplicate names -/

namespace Gcurl

theorem Parse_concat (h : Headers) (l : String) :
    Headers.Parse (h ++ [l]) = Headers.parseLine (Headers.Parse h) l := by
  simp [Headers.Parse, List.foldl_append]

theorem valuesOf_concat (h : Headers) (l n : String) :
    Headers.valuesOf (h ++ [l]) n = Headers.valuesOf h n ++
      match Headers.pairOf l with
      | some p =>
        if textproto.CanonicalMIMEHeaderKey p.1 = textproto.CanonicalMIMEHeaderKey n
        then [p.2] else []
      | none => [] := by
  unfold Headers.valuesOf
  rw [List.filterMap_append, List.filter_append, List.map_append]
  congr 1
  cases hp : Headers.pairOf l with
  | none => simp [hp]
  | some p =>
    by_cases hc : textproto.CanonicalMIMEHeaderKey p.1 = textproto.CanonicalMIMEHeaderKey n
    · simp [hp, hc]
    · simp [hp, hc]

/-- The entry of a header name in the parsed mapping: the single value of the last
pair that carries the name, and no entry when no pair carries it. -/
theorem index_Parse (h : Headers) (n : String) :
    Header.index (Headers.Parse h) (textproto.CanonicalMIMEHeaderKey n)
      = (Headers.valuesOf h n).getLast?.map fun v => [v] := by
  induction h using List.reverseRecOn with
  | nil => rfl
  | append_singleton h l ih =>
    rw [Parse_concat, valuesOf_concat, parseLine_eq]
    cases hp : Headers.pairOf l with
    | none => simpa using ih
    | some p =>
      by_cases hc : textproto.CanonicalMIMEHeaderKey p.1 = textproto.CanonicalMIMEHeaderKey n
      · simp [Header.Set, Header.index_assign, hc, List.getLast?_concat]
      · simp [Header.Set, Header.index_assign, hc, ih]

/-- C2, amended: duplicate header names.  For every Headers sequence in which two
pairs or more carry the same header name up to canonicalisation (names with the same
canonical key, such as `X-Dup` and `x-dup`), the mapping returned by Parse holds
under that name, at its canonical key, exactly one value, the value of the last such
pair in the sequence: the later pair overwrites the earlier one, and values are
never appended. -/
theorem Parse_duplicate_last_wins (h : Headers) (n : String)
    (hdup : 2 ≤ (Headers.valuesOf h n).length) :
    ∃ last, (Headers.valuesOf h n).getLast? = some last ∧
      (Headers.Parse h).Values n = [last] ∧
      Header.index (Headers.Parse h) (textproto.CanonicalMIMEHeaderKey n) = some [last] := by
  have hne : Headers.valuesOf h n ≠ [] := by
    intro e
    rw [e] at hdup
    simp at hdup
  refine ⟨(Headers.valuesOf h n).getLast hne, List.getLast?_eq_getLast _ hne, ?_, ?_⟩
  · simp [Header.Values, index_Parse, List.getLast?_eq_getLast _ hne]
  · simp [index_Parse, List.getLast?_eq_getLast _ hne]

/-- C2, amended, at the sequence `X-Dup=1`, `Other=x`, `"X-Dup=2"`, `X-Dup=3`. -/
theorem Parse_duplicate_last_wins_witness :
    ∃ last, (Headers.valuesOf ["X-Dup=1", "Other=x", "\"X-Dup=2\"", "X-Dup=3"] "X-Dup").getLast?
        = some last ∧
      (Headers.Parse ["X-Dup=1", "Other=x", "\"X-Dup=2\"", "X-Dup=3"]).Values "X-Dup" = [last] ∧
      Header.index (Headers.Parse ["X-Dup=1", "Other=x", "\"X-Dup=2\"", "X-Dup=3"])
        (textproto.CanonicalMIMEHeaderKey "X-Dup") = some [last] :=
  Parse_duplicate_last_wins ["X-Dup=1", "Other=x", "\"X-Dup=2\"", "X-Dup=3"] "X-Dup" (by decide)

/-- C2 as stated fails: in the sequence `X-Dup=1`, `X-Dup=2`, `x-dup=3` two pairs
carry the name `X-Dup` and the last of them has the value `2`, yet the mapping holds
`3` under `X-Dup`, the value of the later pair, whose name is `x-dup`. -/
theorem Parse_duplicate_counterexample :
    List.filterMap Headers.pairOf ["X-Dup=1", "X-Dup=2", "x-dup=3"]
      = [("X-Dup", "1"), ("X-Dup", "2"), ("x-dup", "3")] ∧
    "X-Dup" ≠ "x-dup" ∧
    Headers.Parse ["X-Dup=1", "X-Dup=2", "x-dup=3"] = [("X-Dup", ["3"])] ∧
    (Headers.Parse ["X-Dup=1", "X-Dup=2", "x-dup=3"]).Values "X-Dup" = ["3"] ∧
    (Headers.Parse ["X-Dup=1", "X-Dup=2", "x-dup=3"]).Values "X-Dup" ≠ ["2"] := by
  decide

end Gcurl

/-! ## Canonical keys -/

namespace Gcurl

theorem canonicalize_canonicalize (upper : Bool) (s : List Char) :
    textproto.canonicalize upper (textproto.canonicalize upper s)
      = textproto.canonicalize upper s := by
  induction s generalizing upper with
  | nil => rfl
  | cons c cs ih =>
    cases upper
    · simp only [textproto.canonicalize, Bool.false_eq_true, if_false, toLower_toLower, ih]
    · simp only [textproto.canonicalize, if_true, toUpper_toUpper, ih]

theorem all_valid_canonicalize (upper : Bool) (s : List Char) :
    (textproto.canonicalize upper s).all textproto.validHeaderFieldByte
      = s.all textproto.validHeaderFieldByte := by
  induction s generalizing upper with
  | nil => rfl
  | cons c cs ih =>
    cases upper
    · simp only [textproto.canonicalize, Bool.false_eq_true, if_false, List.all_cons,
        valid_toLower, ih]
    · simp only [textproto.canonicalize, if_true, List.all_cons, valid_toUpper, ih]

theorem inCanonicalForm_canonicalize (upper : Bool) (s : List Char) :
    inCanonicalForm upper (textproto.canonicalize upper s) = true := by
  induction s generalizing upper with
  | nil => rfl
  | cons c cs ih =>
    cases upper
    · simp only [textproto.canonicalize, Bool.false_eq_true, if_false, inCanonicalForm,
        not_isUpper_toLower, Bool.not_false, Bool.true_and, ih]
    · simp only [textproto.canonicalize, if_true, inCanonicalForm,
        not_isLower_toUpper, Bool.not_false, Bool.true_and, ih]

theorem map_toLower_canonicalize (upper : Bool) (s : List Char) :
    (textproto.canonicalize upper s).map Char.toLower = s.map Char.toLower := by
  induction s generalizing upper with
  | nil => rfl
  | cons c cs ih =>
    cases upper
    · simp only [textproto.canonicalize, Bool.false_eq_true, if_false, List.map_cons,
        toLower_toLower, ih]
    · simp only [textproto.canonicalize, if_true, List.map_cons, toLower_toUpper, ih]

/-- Canonicalising a canonical key changes nothing. -/
theorem CanonicalMIMEHeaderKey_idem (s : String) :
    textproto.CanonicalMIMEHeaderKey (textproto.CanonicalMIMEHeaderKey s)
      = textproto.CanonicalMIMEHeaderKey s := by
  by_cases hv : s.data.all textproto.validHeaderFieldByte = true
  · have h1 : textproto.CanonicalMIMEHeaderKey s
        = String.mk (textproto.canonicalize true s.data) := by
      simp only [textproto.CanonicalMIMEHeaderKey, hv, if_true]
    rw [h1]
    simp only [textproto.CanonicalMIMEHeaderKey, all_valid_canonicalize, hv, if_true,
      canonicalize_canonicalize]
  · have h1 : textproto.CanonicalMIMEHeaderKey s = s := by
      simp only [textproto.CanonicalMIMEHeaderKey, hv, if_false]
      rfl
    rw [h1, h1]

/-- Every key of a mapping built by the loop of Parse is a key of the mapping the
loop started from or the canonical key of the name of a pair. -/
theorem mem_keys_foldl_parseLine (h : Headers) (m : Header) (k : String)
    (hk : k ∈ Header.keys (h.foldl Headers.parseLine m)) :
    k ∈ Header.keys m ∨ ∃ line ∈ h, ∃ name value,
      Headers.pairOf line = some (name, value) ∧ k = textproto.CanonicalMIMEHeaderKey name := by
  induction h generalizing m with
  | nil => exact Or.inl hk
  | cons l rest ih =>
    rw [List.foldl_cons] at hk
    rcases ih _ hk with h1 | ⟨line, hl, name, value, hp, hkn⟩
    · rw [parseLine_eq] at h1
      cases hp : Headers.pairOf l with
      | none =>
        rw [hp] at h1
        exact Or.inl h1
      | some p =>
        rw [hp] at h1
        rcases Header.mem_keys_assign _ _ _ _ h1 with h2 | h2
        · exact Or.inr ⟨l, List.mem_cons_self _ _, p.1, p.2, hp, h2⟩
        · exact Or.inl h2
    · exact Or.inr ⟨line, List.mem_cons_of_mem _ hl, name, value, hp, hkn⟩

/-- C5: the mapping returned by Parse is case-normalized.  For every Headers
sequence, every key of the result is the canonical key of the name of one of the
pairs, which canonicalisation leaves unchanged; when the name is a valid header
token the key is in canonical header-name form (no lower-case letter at the start or
after a `-`, no upper-case letter elsewhere) and is the name up to the case of its
letters.  So the pairs `x-test=1` and `X-TEST=2` end up under the one key `X-Test`,
which holds the later value. -/
theorem Parse_keys_canonical (h : Headers) (k : String)
    (hk : k ∈ Header.keys (Headers.Parse h)) :
    textproto.CanonicalMIMEHeaderKey k = k ∧
    (∃ line ∈ h, ∃ name value,
      Headers.pairOf line = some (name, value) ∧
      k = textproto.CanonicalMIMEHeaderKey name ∧
      (isToken name = true →
        inCanonicalForm true k.data = true ∧
        k.data.map Char.toLower = name.data.map Char.toLower)) ∧
    Headers.Parse ["x-test=1", "X-TEST=2"] = [("X-Test", ["2"])] := by
  rcases mem_keys_foldl_parseLine h [] k hk with h0 | ⟨line, hl, name, value, hp, hkn⟩
  · simp [Header.keys] at h0
  · refine ⟨?_, ⟨line, hl, name, value, hp, hkn, ?_⟩, by decide⟩
    · rw [hkn, CanonicalMIMEHeaderKey_idem]
    · intro ht
      have hv : name.data.all textproto.validHeaderFieldByte = true := ht
      have h1 : k = String.mk (textproto.canonicalize true name.data) := by
        rw [hkn]
        simp only [textproto.CanonicalMIMEHeaderKey, hv, if_true]
      rw [h1]
      exact ⟨inCanonicalForm_canonicalize true _, map_toLower_canonicalize true _⟩

/-- C5 at the sequence `x-test=1`, `X-TEST=2` and its key `X-Test`. -/
theorem Parse_keys_canonical_witness :
    textproto.CanonicalMIMEHeaderKey "X-Test" = "X-Test" ∧
    (∃ line ∈ (["x-test=1", "X-TEST=2"] : Headers), ∃ name value,
      Headers.pairOf line = some (name, value) ∧
      "X-Test" = textproto.CanonicalMIMEHeaderKey name ∧
      (isToken name = true →
        inCanonicalForm true "X-Test".data = true ∧
        "X-Test".data.map Char.toLower = name.data.map Char.toLower)) ∧
    Headers.Parse ["x-test=1", "X-TEST=2"] = [("X-Test", ["2"])] :=
  Parse_keys_canonical ["x-test=1", "X-TEST=2"] "X-Test" (by decide)

end Gcurl

/-! ## No `=` survives parsing -/

namespace Gcurl

theorem strings.splitChars_no_sep (sep : Char) (s : List Char) :
    ∀ p ∈ strings.splitChars sep s, sep ∉ p := by
  induction s with
  | nil => simp [strings.splitChars]
  | cons c cs ih =>
    intro p hp
    have hne := strings.splitChars_ne_nil sep cs
    by_cases hc : c = sep
    · simp only [strings.splitChars, hc, if_true, List.mem_cons] at hp
      rcases hp with hp | hp
      · simp [hp]
      · exact ih p hp
    · cases hs : strings.splitChars sep cs with
      | nil => exact absurd hs hne
      | cons q qs =>
        rw [hs] at ih
        simp only [strings.splitChars, hc, if_false, hs, List.headD_cons, List.tail_cons,
          List.mem_cons] at hp
        rcases hp with hp | hp
        · rw [hp]
          intro hmem
          rcases List.mem_cons.mp hmem with e | e
          · exact hc e.symm
          · exact ih q (List.mem_cons_self _ _) e
        · exact ih p (List.mem_cons_of_mem _ hp)

theorem pairOf_no_eq (line name value : String)
    (hp : Headers.pairOf line = some (name, value)) :
    '=' ∉ name.data ∧ '=' ∉ value.data := by
  unfold Headers.pairOf strings.Split at hp
  have hall := strings.splitChars_no_sep '=' (strings.Replace line '"' "").data
  cases hs : strings.splitChars '=' (strings.Replace line '"' "").data with
  | nil => simp [hs] at hp
  | cons a rest =>
    cases rest with
    | nil => simp [hs] at hp
    | cons b rest2 =>
      rw [hs] at hall
      simp only [hs, List.map_cons, Option.some.injEq, Prod.mk.injEq] at hp
      obtain ⟨h1, h2⟩ := hp
      subst h1 h2
      exact ⟨hall a (by simp), hall b (by simp)⟩

theorem toUpper_eq_equals (c : Char) : c.toUpper = '=' → c = '=' := by
  refine char_cases (fun c => c.toUpper = '=' → c = '=') (by decide) ?_ c
  intro c h
  simp [toUpper_of_not_ascii c h]

theorem toLower_eq_equals (c : Char) : c.toLower = '=' → c = '=' := by
  refine char_cases (fun c => c.toLower = '=' → c = '=') (by decide) ?_ c
  intro c h
  simp [toLower_of_not_ascii c h]

theorem canonicalize_no_eq (upper : Bool) (s : List Char) (h : '=' ∉ s) :
    '=' ∉ textproto.canonicalize upper s := by
  induction s generalizing upper with
  | nil => simp [textproto.canonicalize]
  | cons c cs ih =>
    have hc : ¬ c = '=' := fun e => h (by simp [e])
    have hcs : '=' ∉ cs := fun e => h (List.mem_cons_of_mem _ e)
    intro hmem
    simp only [textproto.canonicalize, List.mem_cons] at hmem
    rcases hmem with e | e
    · cases upper
      · exact hc (toLower_eq_equals c (by simpa using e.symm))
      · exact hc (toUpper_eq_equals c (by simpa using e.symm))
    · exact ih _ hcs e

theorem CanonicalMIMEHeaderKey_no_eq (s : String) (h : '=' ∉ s.data) :
    '=' ∉ (textproto.CanonicalMIMEHeaderKey s).data := by
  unfold textproto.CanonicalMIMEHeaderKey
  split
  · exact canonicalize_no_eq true s.data h
  · exact h

theorem Header.mem_assign (m : Header) (k : String) (v : List String)
    (e : String × List String) (he : e ∈ Header.assign m k v) : e = (k, v) ∨ e ∈ m := by
  induction m with
  | nil => simpa [Header.assign] using he
  | cons e0 rest ih =>
    obtain ⟨k0, v0⟩ := e0
    by_cases h0 : k0 = k
    · simp only [Header.assign, h0, if_true, List.mem_cons] at he
      rcases he with he | he
      · exact Or.inl he
      · exact Or.inr (List.mem_cons_of_mem _ he)
    · simp only [Header.assign, h0, if_false, List.mem_cons] at he
      rcases he with he | he
      · exact Or.inr (by simp [he])
      · rcases ih he with h1 | h1
        · exact Or.inl h1
        · exact Or.inr (List.mem_cons_of_mem _ h1)

/-- No key and no value of a mapping returned by Parse contains a `=`. -/
theorem Parse_no_eq (h : Headers) (m : Header)
    (hm : ∀ e ∈ m, '=' ∉ e.1.data ∧ ∀ v ∈ e.2, '=' ∉ v.data) :
    ∀ e ∈ h.foldl Headers.parseLine m, '=' ∉ e.1.data ∧ ∀ v ∈ e.2, '=' ∉ v.data := by
  induction h generalizing m with
  | nil => exact hm
  | cons l rest ih =>
    rw [List.foldl_cons]
    apply ih
    intro e he
    rw [parseLine_eq] at he
    cases hp : Headers.pairOf l with
    | none =>
      rw [hp] at he
      exact hm e he
    | some p =>
      rw [hp] at he
      obtain ⟨hn, hv⟩ := pairOf_no_eq l p.1 p.2 hp
      rcases Header.mem_assign _ _ _ _ he with h1 | h1
      · subst h1
        refine ⟨CanonicalMIMEHeaderKey_no_eq _ hn, ?_⟩
        intro v hvm
        simp only [List.mem_singleton] at hvm
        rw [hvm]
        exact hv
      · exact hm e h1

end Gcurl

/-! ## Values with a `=` in them -/

namespace Gcurl

theorem exists_first_occurrence (c : Char) (l : List Char) (h : c ∈ l) :
    ∃ a b, l = a ++ c :: b ∧ c ∉ a := by
  induction l with
  | nil => simp at h
  | cons x xs ih =>
    by_cases hx : x = c
    · exact ⟨[], xs, by simp [hx], by simp⟩
    · have hxs : c ∈ xs := by
        rcases List.mem_cons.mp h with e | e
        · exact absurd e.symm hx
        · exact e
      obtain ⟨a, b, hab, ha⟩ := ih hxs
      refine ⟨x :: a, b, by simp [hab], ?_⟩
      intro hm
      rcases List.mem_cons.mp hm with e | e
      · exact hx e.symm
      · exact ha e

/-- A text with two `=` characters or more is `name=v1=rest`, with no `=` in `name`
and in `v1`. -/
theorem exists_first_two_parts (line : String) (h2 : 2 ≤ line.data.count '=') :
    ∃ name v1 rest : String, line = name ++ "=" ++ v1 ++ "=" ++ rest ∧
      '=' ∉ name.data ∧ '=' ∉ v1.data := by
  have hmem : '=' ∈ line.data := List.count_pos_iff.mp (by omega)
  obtain ⟨a, b, hab, ha⟩ := exists_first_occurrence '=' line.data hmem
  have hb : '=' ∈ b := by
    apply List.count_pos_iff.mp
    have hc : List.count '=' line.data = List.count '=' a + (List.count '=' b + 1) := by
      rw [hab, List.count_append, List.count_cons_self]
    have h0 : List.count '=' a = 0 := List.count_eq_zero.mpr ha
    omega
  obtain ⟨c, d, hcd, hc⟩ := exists_first_occurrence '=' b hb
  refine ⟨String.mk a, String.mk c, String.mk d, ?_, ha, hc⟩
  apply String.ext
  simp [String.data_append, hab, hcd]

theorem parseLine_first_two_parts (name v1 rest : String)
    (hname : '=' ∉ name.data) (hv1 : '=' ∉ v1.data) :
    (∀ parsed : Header,
      Headers.parseLine parsed (name ++ "=" ++ v1 ++ "=" ++ rest)
        = parsed.Set (strings.Replace name '"' "") (strings.Replace v1 '"' "") ∧
      Headers.parseLine parsed (name ++ "=" ++ v1 ++ "=" ++ rest)
        = Headers.parseLine parsed (name ++ "=" ++ v1)) ∧
    (∀ before after : Headers,
      Headers.Parse (before ++ (name ++ "=" ++ v1 ++ "=" ++ rest) :: after)
        = Headers.Parse (before ++ (name ++ "=" ++ v1) :: after)) ∧
    Headers.Parse [name ++ "=" ++ v1 ++ "=" ++ rest]
      = [(textproto.CanonicalMIMEHeaderKey (strings.Replace name '"' ""),
          [strings.Replace v1 '"' ""])] ∧
    (Headers.Parse [name ++ "=" ++ v1 ++ "=" ++ rest]).Values (strings.Replace name '"' "")
      = [strings.Replace v1 '"' ""] := by
  have h2 : Headers.pairOf (name ++ "=" ++ v1 ++ "=" ++ rest)
      = some (strings.Replace name '"' "", strings.Replace v1 '"' "") :=
    pairOf_of_parts name v1 rest.data hname hv1 _ (Or.inr (by simp [String.data_append]))
  have h1 : Headers.pairOf (name ++ "=" ++ v1)
      = some (strings.Replace name '"' "", strings.Replace v1 '"' "") :=
    pairOf_of_parts name v1 [] hname hv1 _ (Or.inl (by simp [String.data_append]))
  have hstep : ∀ parsed : Header,
      Headers.parseLine parsed (name ++ "=" ++ v1 ++ "=" ++ rest)
        = Headers.parseLine parsed (name ++ "=" ++ v1) := by
    intro parsed
    rw [parseLine_eq, parseLine_eq, h1, h2]
  refine ⟨fun parsed => ⟨?_, hstep parsed⟩, fun before after => ?_, ?_, ?_⟩
  · rw [parseLine_eq, h2]
  · simp only [Headers.Parse, List.foldl_append, List.foldl_cons, hstep]
  · simp only [Headers.Parse, List.foldl_cons, List.foldl_nil, parseLine_eq, h2, Header.Set,
      Header.assign]
  · simp only [Headers.Parse, List.foldl_cons, List.foldl_nil, parseLine_eq, h2, Header.Set,
      Header.Values, Header.assign, Header.index, if_true, Option.getD_some]

/-- C4: every raw header pair with two `=` characters or more is `name=v1=rest`,
where `name` is the text before the first `=` and `v1` the text between the first
and the second, and Parse treats it exactly as it treats `name=v1`: whatever mapping
has been built so far, the line sets, under the name (quotes removed), the single
value `v1` (quotes removed).  The text from the second `=` onward is lost: it has no
effect on the resulting mapping, and it appears nowhere in it, since no key and no
value of the mapping contains a `=`. -/
theorem Parse_keeps_first_two_parts (line : String) (h2 : 2 ≤ line.data.count '=') :
    ∃ name v1 rest : String,
      line = name ++ "=" ++ v1 ++ "=" ++ rest ∧ '=' ∉ name.data ∧ '=' ∉ v1.data ∧
      (∀ parsed : Header,
        Headers.parseLine parsed line
          = parsed.Set (withoutQuotes name) (withoutQuotes v1) ∧
        Headers.parseLine parsed line = Headers.parseLine parsed (name ++ "=" ++ v1)) ∧
      (∀ before after : Headers,
        Headers.Parse (before ++ line :: after)
          = Headers.Parse (before ++ (name ++ "=" ++ v1) :: after) ∧
        ∀ e ∈ Headers.Parse (before ++ line :: after),
          '=' ∉ e.1.data ∧ ∀ v ∈ e.2, '=' ∉ v.data) ∧
      Headers.Parse [line]
        = [(textproto.CanonicalMIMEHeaderKey (withoutQuotes name),
            [withoutQuotes v1])] ∧
      (Headers.Parse [line]).Values (withoutQuotes name)
        = [withoutQuotes v1] := by
  obtain ⟨name, v1, rest, hline, hname, hv1⟩ := exists_first_two_parts line h2
  obtain ⟨hstep, hseq, hone, hval⟩ := parseLine_first_two_parts name v1 rest hname hv1
  simp only [Replace_quote] at hstep hone hval
  subst hline
  exact ⟨name, v1, rest, rfl, hname, hv1, hstep,
    fun before after => ⟨hseq before after, Parse_no_eq _ [] (by simp)⟩, hone, hval⟩

/-- C4 at the line `"x-token=abc=def=="`. -/
theorem Parse_keeps_first_two_parts_witness :
    ∃ name v1 rest : String,
      "\"x-token=abc=def==\"" = name ++ "=" ++ v1 ++ "=" ++ rest ∧
      '=' ∉ name.data ∧ '=' ∉ v1.data ∧
      (∀ parsed : Header,
        Headers.parseLine parsed "\"x-token=abc=def==\""
          = parsed.Set (withoutQuotes name) (withoutQuotes v1) ∧
        Headers.parseLine parsed "\"x-token=abc=def==\""
          = Headers.parseLine parsed (name ++ "=" ++ v1)) ∧
      (∀ before after : Headers,
        Headers.Parse (before ++ "\"x-token=abc=def==\"" :: after)
          = Headers.Parse (before ++ (name ++ "=" ++ v1) :: after) ∧
        ∀ e ∈ Headers.Parse (before ++ "\"x-token=abc=def==\"" :: after),
          '=' ∉ e.1.data ∧ ∀ v ∈ e.2, '=' ∉ v.data) ∧
      Headers.Parse ["\"x-token=abc=def==\""]
        = [(textproto.CanonicalMIMEHeaderKey (withoutQuotes name),
            [withoutQuotes v1])] ∧
      (Headers.Parse ["\"x-token=abc=def==\""]).Values (withoutQuotes name)
        = [withoutQuotes v1] :=
  Parse_keeps_first_two_parts "\"x-token=abc=def==\"" (by decide)

end Gcurl

/-! ## Well-formed header lists -/

namespace Gcurl

theorem intercalate_go_data (acc s : String) (l : List String) :
    (String.intercalate.go acc s l).data
      = acc.data ++ l.flatMap fun a => s.data ++ a.data := by
  induction l generalizing acc with
  | nil => simp [String.intercalate.go]
  | cons a rest ih =>
    simp [String.intercalate.go, ih, String.data_append, List.flatMap_cons]

theorem strings.splitChars_joined (sep : Char) (a : List Char) (l : List (List Char))
    (ha : sep ∉ a) (hl : ∀ b ∈ l, sep ∉ b) :
    strings.splitChars sep (a ++ l.flatMap fun b => sep :: b) = a :: l := by
  induction l generalizing a with
  | nil => simpa using strings.splitChars_of_not_mem sep a ha
  | cons b rest ih =>
    rw [List.flatMap_cons, List.cons_append, strings.splitChars_append_sep _ _ _ ha,
      ih b (hl b (List.mem_cons_self _ _)) fun c hc => hl c (List.mem_cons_of_mem _ hc)]

/-- The lines of a header list whose pairs contain no comma are the texts of its
pairs. -/
theorem NewHeaders_headerList (p : RawPair) (ps : List RawPair)
    (hcomma : ∀ q ∈ p :: ps, ',' ∉ q.text.data) :
    NewHeaders (headerList (p :: ps)) = (p :: ps).map RawPair.text := by
  unfold NewHeaders strings.Split headerList
  have hd : (",".intercalate ((p :: ps).map RawPair.text)).data
      = p.text.data ++ (ps.map fun q => q.text.data).flatMap fun b => ',' :: b := by
    simp only [List.map_cons, String.intercalate, intercalate_go_data]
    congr 1
    induction ps with
    | nil => rfl
    | cons q qs ih =>
      have hq : ∀ r ∈ p :: qs, ',' ∉ r.text.data := by
        intro r hr
        rcases List.mem_cons.mp hr with e | e
        · exact hcomma r (by simp [e])
        · exact hcomma r (by simp [e])
      simp only [List.map_cons, List.flatMap_cons, ih hq]
      rfl
  rw [hd, strings.splitChars_joined]
  · simp only [List.map_cons, List.map_map]
    congr 1
  · exact hcomma p (List.mem_cons_self _ _)
  · intro b hb
    obtain ⟨q, hq, rfl⟩ := List.mem_map.mp hb
    exact hcomma q (List.mem_cons_of_mem _ hq)

theorem filter_eq_self_of_not_mem (s : List Char) (q : Char) (h : q ∉ s) :
    s.filter (· ≠ q) = s := by
  apply List.filter_eq_self.mpr
  intro a ha
  have : a ≠ q := fun e => h (e ▸ ha)
  simpa using this

theorem RawPair.text_no_comma (p : RawPair) (hl : plainText p.lhs)
    (hr : ∀ v, p.rhs = some v → plainText v) : ',' ∉ p.text.data := by
  obtain ⟨quoted, lhs, rhs⟩ := p
  have h1 := hl.1
  cases rhs with
  | none => cases quoted <;> simp [RawPair.text, String.data_append, h1]
  | some v =>
    have h2 := (hr v rfl).1
    cases quoted <;> simp [RawPair.text, String.data_append, h1, h2]

theorem RawPair.pairOf_text (p : RawPair) (hl : plainText p.lhs)
    (hr : ∀ v, p.rhs = some v → plainText v) :
    Headers.pairOf p.text = p.rhs.map fun v => (p.lhs, v) := by
  obtain ⟨quoted, lhs, rhs⟩ := p
  obtain ⟨_, hlq, hle⟩ := hl
  cases rhs with
  | none =>
    apply pairOf_of_no_eq
    cases quoted <;> simp [RawPair.text, String.data_append, hle]
  | some v =>
    obtain ⟨_, hvq, hve⟩ := hr v rfl
    have key : (strings.Replace (RawPair.text ⟨quoted, lhs, some v⟩) '"' "").data
        = lhs.data ++ '=' :: v.data := by
      rw [strings.Replace_empty_data]
      cases quoted
      · simp only [RawPair.text, Bool.false_eq_true, if_false, String.data_append,
          List.filter_append]
        rw [filter_eq_self_of_not_mem _ _ hlq, filter_eq_self_of_not_mem _ _ hvq]
        simp
      · simp only [RawPair.text, if_true, String.data_append, List.filter_append]
        rw [filter_eq_self_of_not_mem _ _ hlq, filter_eq_self_of_not_mem _ _ hvq]
        simp
    unfold Headers.pairOf strings.Split
    rw [key, strings.splitChars_append_sep _ _ _ hle, strings.splitChars_of_not_mem _ _ hve]
    rfl

end Gcurl

namespace Gcurl

theorem foldl_parseLine_texts (ps : List RawPair) (m : Header)
    (hplain : ∀ p ∈ ps, plainText p.lhs ∧ ∀ v ∈ p.rhs, plainText v)
    (hdistinct : (Header.keys m ++ (ps.filterMap RawPair.entry).map Prod.fst).Nodup) :
    (ps.map RawPair.text).foldl Headers.parseLine m = m ++ ps.filterMap RawPair.entry := by
  induction ps generalizing m with
  | nil => simp
  | cons p ps ih =>
    have hp := hplain p (List.mem_cons_self _ _)
    have hps : ∀ q ∈ ps, plainText q.lhs ∧ ∀ v ∈ q.rhs, plainText v :=
      fun q hq => hplain q (List.mem_cons_of_mem _ hq)
    rw [List.map_cons, List.foldl_cons, parseLine_eq,
      RawPair.pairOf_text p hp.1 (fun v hv => hp.2 v hv)]
    cases hr : p.rhs with
    | none =>
      have he : RawPair.entry p = none := by simp [RawPair.entry, hr]
      rw [List.filterMap_cons_none he] at hdistinct ⊢
      exact ih m hps hdistinct
    | some v =>
      have he : RawPair.entry p = some (textproto.CanonicalMIMEHeaderKey p.lhs, [v]) := by
        simp [RawPair.entry, hr]
      rw [List.filterMap_cons_some he] at hdistinct ⊢
      have hnot : textproto.CanonicalMIMEHeaderKey p.lhs ∉ Header.keys m := by
        intro hmem
        have := (List.nodup_append.mp hdistinct).2.2
        exact this hmem (by simp)
      simp only [Option.map_some', Header.Set]
      rw [Header.assign_of_not_mem _ _ _ hnot, ih _ hps]
      · simp
      · simpa [Header.keys] using hdistinct

/-- C1, amended: for every header-list input made of comma-separated pairs, each
optionally wrapped in double quotes, where names and values contain no `,`, `"` or
`=` and the canonical keys of the names of the pairs with a `=` are pairwise
distinct, `NewHeaders(input).Parse()` contains exactly the pairs in which a `=` was
present: one entry per such pair, keyed by the canonical key of the pair's left-hand
side (quotes stripped), whose value list is the single right-hand side (quotes
stripped), and no other entry. -/
theorem Parse_headerList (ps : List RawPair)
    (hplain : ∀ p ∈ ps, plainText p.lhs ∧ ∀ v ∈ p.rhs, plainText v)
    (hdistinct : ((ps.filterMap RawPair.entry).map Prod.fst).Nodup) :
    Headers.Parse (NewHeaders (headerList ps)) = ps.filterMap RawPair.entry := by
  cases ps with
  | nil => decide
  | cons p ps =>
    rw [NewHeaders_headerList p ps fun q hq =>
      RawPair.text_no_comma q (hplain q hq).1 fun v hv => (hplain q hq).2 v hv]
    have := foldl_parseLine_texts (p :: ps) [] hplain (by simpa [Header.keys] using hdistinct)
    simpa [Headers.Parse] using this

/-- C1, amended, at the input `"k1=v1",malformed,x-test=2`. -/
theorem Parse_headerList_witness :
    Headers.Parse (NewHeaders (headerList
        [⟨true, "k1", some "v1"⟩, ⟨false, "malformed", none⟩, ⟨false, "x-test", some "2"⟩]))
      = List.filterMap RawPair.entry
        [⟨true, "k1", some "v1"⟩, ⟨false, "malformed", none⟩, ⟨false, "x-test", some "2"⟩] :=
  Parse_headerList
    [⟨true, "k1", some "v1"⟩, ⟨false, "malformed", none⟩, ⟨false, "x-test", some "2"⟩]
    (by decide) (by decide)

/-- C1 as stated fails: the input `"k1=v1","k2=v2"` is keyed by `K1` and `K2`, not
by the left-hand sides `k1` and `k2`, and the input `x-test=1,X-TEST=2`, whose two
names are distinct and free of `,`, `"` and `=`, gives one entry, not two. -/
theorem Parse_headerList_counterexample :
    headerList [⟨true, "k1", some "v1"⟩, ⟨true, "k2", some "v2"⟩] = "\"k1=v1\",\"k2=v2\"" ∧
    Headers.Parse (NewHeaders "\"k1=v1\",\"k2=v2\"") = [("K1", ["v1"]), ("K2", ["v2"])] ∧
    Header.index (Headers.Parse (NewHeaders "\"k1=v1\",\"k2=v2\"")) "k1" = none ∧
    headerList [⟨false, "x-test", some "1"⟩, ⟨false, "X-TEST", some "2"⟩] = "x-test=1,X-TEST=2" ∧
    (plainText "x-test" ∧ plainText "X-TEST" ∧ plainText "1" ∧ plainText "2" ∧
      "x-test" ≠ "X-TEST") ∧
    Headers.Parse (NewHeaders "x-test=1,X-TEST=2") = [("X-Test", ["2"])] ∧
    Header.index (Headers.Parse (NewHeaders "x-test=1,X-TEST=2")) "x-test" = none ∧
    Header.index (Headers.Parse (NewHeaders "x-test=1,X-TEST=2")) "X-TEST" = none := by
  decide

end Gcurl

/-! ## From options to request -/

namespace Gcurl

theorem ToRequest_ok (NewRequest : String → String → Bytes → Except String Request)
    (o : Options) (r : Request) (hr : NewRequest o.Method o.URL o.Body = .ok r) :
    o.ToRequest NewRequest = .ok { r with Header := o.Headers.Parse } := by
  simp [Options.ToRequest, hr, check, Except.bind]

theorem ToRequest_error (NewRequest : String → String → Bytes → Except String Request)
    (o : Options) (err : String) (hr : NewRequest o.Method o.URL o.Body = .error err) :
    o.ToRequest NewRequest = .error ("Could not create request from options: " ++ err) := by
  simp [Options.ToRequest, hr, check, Except.bind, String.append_assoc]

/-- The course of a run with a URL: a failed read of standard input ends it; otherwise
`ToRequest` is called once, on the options built from the flags, the URL and the
body chosen. -/
theorem main_events (flags : Flags) (url : String) (rest : List String) (w : World) :
    (flags.stdin = true → ∀ err, w.stdin.2 = some err →
      main flags (url :: rest) w
        = { events := [.readStdin],
            exit := .panic ("Error reading body from stdin: " ++ err) }) ∧
    (∀ body, (flags.stdin = true ∧ w.stdin.2 = none ∧ body = w.stdin.1) ∨
        (flags.stdin = false ∧ body = bytesOf flags.body) →
      ∃ tail,
        (main flags (url :: rest) w).events
          = (if flags.stdin then [Event.readStdin] else []) ++
              Event.toRequest { Method := flags.method, URL := url, Body := body,
                                Headers := NewHeaders flags.headers } :: tail ∧
        (∀ e ∈ tail, e ≠ .readStdin ∧ e ≠ .printDefaults ∧
          (∀ o, e ≠ .toRequest o) ∧ ∀ text, e ≠ .print text) ∧
        (main flags (url :: rest) w).exit ≠ .status 1 ∧
        (∀ err, w.NewRequest flags.method url body = .error err →
          tail = [] ∧ (main flags (url :: rest) w).exit
            = .panic ("Could not create request from options: " ++ err)) ∧
        (∀ q ∈ tail, ∀ r, q = .send r →
          ∃ r0, w.NewRequest flags.method url body = .ok r0 ∧
            r = { r0 with Header := Headers.Parse (NewHeaders flags.headers) })) := by
  constructor
  · intro hs err he
    simp [main, hs, he, check, Except.bind, String.append_assoc]
  · intro body hb
    let o : Options :=
      { Method := flags.method, URL := url, Body := body, Headers := NewHeaders flags.headers }
    have hread : (if flags.stdin = true then
          (([.readStdin] : List Event),
            (check w.stdin.2 "Error reading body from stdin").bind fun _ =>
              (Except.ok { o with Body := w.stdin.1 } : Except String Options))
        else
          ([], (check none "Error writing to body buffer").bind fun _ =>
              Except.ok { o with Body := bytesOf flags.body }))
        = ((if flags.stdin then [Event.readStdin] else []), Except.ok o) := by
      rcases hb with ⟨hs, he, hbody⟩ | ⟨hs, hbody⟩
      · simp [o, hs, he, hbody, check, Except.bind]
      · simp [o, hs, hbody, check, Except.bind]
    simp only [main, hread]
    cases hn : w.NewRequest flags.method url body with
    | error err =>
      have ht := ToRequest_error w.NewRequest
        { Method := flags.method, URL := url, Body := body,
          Headers := NewHeaders flags.headers } err hn
      simp only [ht]
      exact ⟨[], rfl, by simp, by simp, by simp, by simp⟩
    | ok r0 =>
      have ht := ToRequest_ok w.NewRequest
        { Method := flags.method, URL := url, Body := body,
          Headers := NewHeaders flags.headers } r0 hn
      simp only [ht]
      cases hd : w.Do { r0 with Header := Headers.Parse (NewHeaders flags.headers) } with
      | error err =>
        refine ⟨[.send { r0 with Header := Headers.Parse (NewHeaders flags.headers) }],
          by simp, by simp, by simp [check], by simp, by simp⟩
      | ok response =>
        refine ⟨[.send { r0 with Header := Headers.Parse (NewHeaders flags.headers) },
            .writeStdout (w.copyOut response).1, .closeBody],
          by simp, by simp, ?_, by simp, by simp⟩
        cases hc : (w.copyOut response).2 <;> simp [check, hc]

theorem handedToRequest_of_events (r : Run) (pre tail : List Event) (o : Options)
    (hev : r.events = pre ++ Event.toRequest o :: tail)
    (hpre : ∀ e ∈ pre, ∀ o1, e ≠ .toRequest o1)
    (htail : ∀ e ∈ tail, ∀ o1, e ≠ .toRequest o1) :
    r.handedToRequest = [o] := by
  have hnone : ∀ l : List Event, (∀ e ∈ l, ∀ o1, e ≠ .toRequest o1) →
      l.filterMap (fun e => match e with
        | .toRequest o => some o
        | _ => none) = [] := by
    intro l hl
    apply List.filterMap_eq_nil_iff.mpr
    intro e he
    cases e <;> first | rfl | exact absurd rfl (hl _ he _)
  simp only [Run.handedToRequest, hev, List.filterMap_append, List.filterMap_cons,
    hnone pre hpre, hnone tail htail, List.nil_append]

theorem toRequest_not_in_read (b : Bool) :
    ∀ e ∈ (if b then [Event.readStdin] else []), ∀ o1, e ≠ .toRequest o1 := by
  cases b <;> simp

end Gcurl

/-! ## Properties of the driver -/

namespace Gcurl

theorem bytesOf_eq (s : String) : bytesOf s = s.toUTF8.data.toList := rfl

theorem utf8EncodeChar_ascii (c : Char) (h : c.toNat < 128) :
    String.utf8EncodeChar c = [UInt8.ofNat c.toNat] := by
  unfold String.utf8EncodeChar
  have h1 : c.val ≤ 0x7f := by
    show c.val.toNat ≤ 127
    have : c.toNat = c.val.toNat := rfl
    omega
  simp only [h1, if_true]
  rfl

theorem flatMap_utf8EncodeChar_ascii (l : List Char) (h : ∀ c ∈ l, c.toNat < 128) :
    l.flatMap String.utf8EncodeChar = l.map fun c => UInt8.ofNat c.toNat := by
  induction l with
  | nil => rfl
  | cons c cs ih =>
    rw [List.flatMap_cons, utf8EncodeChar_ascii c (h c (List.mem_cons_self _ _)),
      ih fun d hd => h d (List.mem_cons_of_mem _ hd)]
    rfl

/-- The bytes of an ASCII text: one byte for each character, its code. -/
theorem bytesOf_ascii (s : String) (h : ∀ c ∈ s.data, c.toNat < 128) :
    bytesOf s = s.data.map fun c => UInt8.ofNat c.toNat :=
  flatMap_utf8EncodeChar_ascii s.data h

/-- C6: body selection in main.  For every `-body` value, every content of standard
input and every `-stdin` value, when a URL is supplied: with `-stdin` true and a
successful read, standard input is read and the options handed to `ToRequest` hold
as body exactly the bytes read from it, whatever `-body` is; with `-stdin` false
they hold exactly the bytes of the `-body` value (its UTF-8 encoding; for an ASCII
value, one byte for each character, its code) and standard input is not read. -/
theorem main_body_selection (flags : Flags) (url : String) (rest : List String) (w : World) :
    (flags.stdin = true → w.stdin.2 = none →
      (main flags (url :: rest) w).handedToRequest
        = [{ Method := flags.method, URL := url, Body := w.stdin.1,
             Headers := NewHeaders flags.headers }] ∧
      Event.readStdin ∈ (main flags (url :: rest) w).events) ∧
    (flags.stdin = false →
      (main flags (url :: rest) w).handedToRequest
        = [{ Method := flags.method, URL := url, Body := flags.body.toUTF8.data.toList,
             Headers := NewHeaders flags.headers }] ∧
      ((∀ c ∈ flags.body.data, c.toNat < 128) →
        (main flags (url :: rest) w).handedToRequest
          = [{ Method := flags.method, URL := url,
               Body := flags.body.data.map fun c => UInt8.ofNat c.toNat,
               Headers := NewHeaders flags.headers }]) ∧
      Event.readStdin ∉ (main flags (url :: rest) w).events) := by
  constructor
  · intro hs he
    obtain ⟨tail, hev, htail, -⟩ :=
      (main_events flags url rest w).2 w.stdin.1 (Or.inl ⟨hs, he, rfl⟩)
    refine ⟨handedToRequest_of_events _ _ tail _ hev (toRequest_not_in_read _)
      fun e hm => (htail e hm).2.2.1, ?_⟩
    rw [hev, hs]
    simp
  · intro hs
    obtain ⟨tail, hev, htail, -⟩ :=
      (main_events flags url rest w).2 (bytesOf flags.body) (Or.inr ⟨hs, rfl⟩)
    have hh := handedToRequest_of_events _ _ tail _ hev (toRequest_not_in_read _)
      fun e hm => (htail e hm).2.2.1
    refine ⟨?_, ?_, ?_⟩
    · rw [hh, bytesOf_eq]
    · intro hascii
      rw [hh, bytesOf_ascii _ hascii]
    · rw [hev, hs]
      intro hmem
      simp only [Bool.false_eq_true, if_false, List.nil_append, List.mem_cons] at hmem
      rcases hmem with h1 | h1
      · cases h1
      · exact (htail _ h1).1 rfl

end Gcurl

namespace Gcurl

theorem mem_sent_iff (r : Run) (q : Request) : q ∈ r.sent ↔ Event.send q ∈ r.events := by
  unfold Run.sent
  rw [List.mem_filterMap]
  constructor
  · rintro ⟨e, he, hq⟩
    cases e <;> simp at hq
    rw [← hq]
    exact he
  · intro h
    exact ⟨_, h, rfl⟩

/-- What a run with a URL can be: the read of standard input fails, or `ToRequest` is
called on the options made of the flags, the URL and the chosen body. -/
theorem main_url_cases (flags : Flags) (url : String) (rest : List String) (w : World) :
    (∃ err, flags.stdin = true ∧ w.stdin.2 = some err ∧
      main flags (url :: rest) w
        = { events := [.readStdin],
            exit := .panic ("Error reading body from stdin: " ++ err) }) ∨
    ∃ body, ((flags.stdin = true ∧ w.stdin.2 = none ∧ body = w.stdin.1) ∨
        (flags.stdin = false ∧ body = bytesOf flags.body)) := by
  cases hs : flags.stdin
  · exact Or.inr ⟨bytesOf flags.body, Or.inr ⟨rfl, rfl⟩⟩
  · cases he : w.stdin.2 with
    | none => exact Or.inr ⟨w.stdin.1, Or.inl ⟨rfl, rfl, rfl⟩⟩
    | some err => exact Or.inl ⟨err, rfl, rfl, (main_events flags url rest w).1 hs err he⟩

/-- C7: usage error.  For every setting of the flags, an invocation with zero
positional arguments prints the usage text and exits with status 1, without calling
`ToRequest`, without sending a request and without reading standard input; with one
positional argument or more this exit is not taken (nothing of the usage text is
printed, the run does not end with status 1) and the first positional argument is
the URL of the options handed to `ToRequest`, which is called when a body is had (no
read of standard input, or a successful one). -/
theorem main_usage (flags : Flags) (w : World) :
    main flags [] w
      = { events := [.print "You must pass a url to request.\n",
                     .print "\t - Example: gcurl [OPTIONS] URL",
                     .printDefaults],
          exit := .status 1 } ∧
    (main flags [] w).handedToRequest = [] ∧
    (main flags [] w).sent = [] ∧
    Event.readStdin ∉ (main flags [] w).events ∧
    ∀ (url : String) (rest : List String),
      (main flags (url :: rest) w).exit ≠ .status 1 ∧
      (∀ e ∈ (main flags (url :: rest) w).events,
        e ≠ .printDefaults ∧ ∀ text, e ≠ .print text) ∧
      (∀ o ∈ (main flags (url :: rest) w).handedToRequest, o.URL = url) ∧
      ((flags.stdin = false ∨ w.stdin.2 = none) →
        ∃ o, (main flags (url :: rest) w).handedToRequest = [o] ∧ o.URL = url) := by
  refine ⟨rfl, rfl, rfl, by simp [main], ?_⟩
  intro url rest
  rcases main_url_cases flags url rest w with ⟨err, hs, he, hm⟩ | ⟨body, hb⟩
  · rw [hm]
    refine ⟨by simp, by simp, by simp [Run.handedToRequest], ?_⟩
    rintro (h | h)
    · rw [hs] at h
      cases h
    · rw [he] at h
      cases h
  · obtain ⟨tail, hev, htail, hexit, -⟩ := (main_events flags url rest w).2 body hb
    have hh := handedToRequest_of_events _ _ tail _ hev (toRequest_not_in_read _)
      fun e hm => (htail e hm).2.2.1
    refine ⟨hexit, ?_, ?_, fun _ => ⟨_, hh, rfl⟩⟩
    · intro e hmem
      rw [hev] at hmem
      rcases List.mem_append.mp hmem with h1 | h1
      · have : e = .readStdin := by
          cases hst : flags.stdin <;> simp [hst] at h1
          exact h1
        subst this
        simp
      · rcases List.mem_cons.mp h1 with h2 | h2
        · subst h2
          simp
        · exact ⟨(htail e h2).2.1, (htail e h2).2.2.2⟩
    · intro o ho
      rw [hh] at ho
      simp only [List.mem_singleton] at ho
      rw [ho]

/-- The requests a run sends are those `ToRequest` returned: the request of the
constructor for the options of the run, with the parsed headers as header mapping. -/
theorem main_sent (flags : Flags) (args : List String) (w : World) (q : Request)
    (hq : q ∈ (main flags args w).sent) :
    ∃ o ∈ (main flags args w).handedToRequest, ∃ r0,
      w.NewRequest o.Method o.URL o.Body = .ok r0 ∧
      q = { r0 with Header := o.Headers.Parse } ∧
      o.Headers = NewHeaders flags.headers := by
  cases args with
  | nil => simp [main, Run.sent] at hq
  | cons url rest =>
    rcases main_url_cases flags url rest w with ⟨err, hs, he, hm⟩ | ⟨body, hb⟩
    · rw [hm] at hq
      simp [Run.sent] at hq
    · obtain ⟨tail, hev, htail, _, _, hsend⟩ := (main_events flags url rest w).2 body hb
      have hh := handedToRequest_of_events _ _ tail _ hev (toRequest_not_in_read _)
        fun e hm => (htail e hm).2.2.1
      rw [mem_sent_iff, hev] at hq
      have hqt : Event.send q ∈ tail := by
        rcases List.mem_append.mp hq with h1 | h1
        · cases hst : flags.stdin <;> simp [hst] at h1
        · rcases List.mem_cons.mp h1 with h2 | h2
          · cases h2
          · exact h2
      obtain ⟨r0, hr0, hqe⟩ := hsend _ hqt q rfl
      exact ⟨_, by rw [hh]; exact List.mem_singleton.mpr rfl, r0, hr0, hqe, rfl⟩

/-- A run whose constructor refuses the options ends with the panic of `ToRequest`
and sends nothing. -/
theorem main_constructor_error (flags : Flags) (args : List String) (w : World)
    (o : Options) (err : String) (ho : o ∈ (main flags args w).handedToRequest)
    (hn : w.NewRequest o.Method o.URL o.Body = .error err) :
    (main flags args w).exit = .panic ("Could not create request from options: " ++ err) ∧
    (main flags args w).sent = [] := by
  cases args with
  | nil => simp [main, Run.handedToRequest] at ho
  | cons url rest =>
    rcases main_url_cases flags url rest w with ⟨e, hs, he, hm⟩ | ⟨body, hb⟩
    · rw [hm] at ho
      simp [Run.handedToRequest] at ho
    · obtain ⟨tail, hev, htail, _, herr, _⟩ := (main_events flags url rest w).2 body hb
      have hh := handedToRequest_of_events _ _ tail _ hev (toRequest_not_in_read _)
        fun e hm => (htail e hm).2.2.1
      rw [hh] at ho
      simp only [List.mem_singleton] at ho
      subst ho
      obtain ⟨ht, hexit⟩ := herr err hn
      refine ⟨hexit, ?_⟩
      rw [ht] at hev
      unfold Run.sent
      rw [hev]
      cases hst : flags.stdin <;> simp

/-- A run with a URL, a body and a request from the constructor sends that request,
with the parsed headers as header mapping, and no other. -/
theorem main_sent_eq (flags : Flags) (url : String) (rest : List String) (w : World)
    (body : Bytes) (r0 : Request)
    (hb : (flags.stdin = true ∧ w.stdin.2 = none ∧ body = w.stdin.1) ∨
      (flags.stdin = false ∧ body = bytesOf flags.body))
    (hn : w.NewRequest flags.method url body = .ok r0) :
    (main flags (url :: rest) w).sent
      = [{ r0 with Header := Headers.Parse (NewHeaders flags.headers) }] := by
  let o : Options :=
    { Method := flags.method, URL := url, Body := body, Headers := NewHeaders flags.headers }
  have hread : (if flags.stdin = true then
        (([.readStdin] : List Event),
          (check w.stdin.2 "Error reading body from stdin").bind fun _ =>
            (Except.ok { o with Body := w.stdin.1 } : Except String Options))
      else
        ([], (check none "Error writing to body buffer").bind fun _ =>
            Except.ok { o with Body := bytesOf flags.body }))
      = ((if flags.stdin then [Event.readStdin] else []), Except.ok o) := by
    rcases hb with ⟨hs, he, hbody⟩ | ⟨hs, hbody⟩
    · simp [o, hs, he, hbody, check, Except.bind]
    · simp [o, hs, hbody, check, Except.bind]
  have ht := ToRequest_ok w.NewRequest o r0 hn
  simp only [main, hread, ht, Run.sent]
  cases hd : w.Do { r0 with Header := Headers.Parse o.Headers } <;>
    cases hst : flags.stdin <;> simp [o]

end Gcurl

namespace Gcurl

/-- C6 at the flags `-stdin=true -body=ignored`, where the body is the two bytes of
standard input, and at the default flags with `-body=data`, where it is the four
bytes `100, 97, 116, 97` of `data`; in the sample surroundings. -/
theorem main_body_selection_witness :
    (main { Flags.defaults with stdin := true, body := "ignored" } ["http://h"]
        World.sample).handedToRequest
      = [{ Method := "GET", URL := "http://h", Body := [104, 105],
           Headers := ["\"Content-Type=application/json\""] }] ∧
    (main { Flags.defaults with body := "data" } ["http://h"] World.sample).handedToRequest
      = [{ Method := "GET", URL := "http://h", Body := [100, 97, 116, 97],
           Headers := ["\"Content-Type=application/json\""] }] ∧
    Event.readStdin ∉
      (main { Flags.defaults with body := "data" } ["http://h"] World.sample).events :=
  ⟨((main_body_selection { Flags.defaults with stdin := true, body := "ignored" }
      "http://h" [] World.sample).1 rfl rfl).1,
   ((main_body_selection { Flags.defaults with body := "data" }
      "http://h" [] World.sample).2 rfl).2.1 (by decide),
   ((main_body_selection { Flags.defaults with body := "data" }
      "http://h" [] World.sample).2 rfl).2.2⟩

/-- The request `http.NewRequest` returns, when it returns one. -/
theorem NewRequest_eq_ok (lib : http.Library) (method url : String) (body : Bytes)
    (r : Request) (hr : http.NewRequest lib method url body = .ok r) :
    ∃ u, lib.parseURL url = .ok u ∧
      r = { Method := if method = "" then "GET" else method, URL := u, Body := body,
            Header := [] } := by
  unfold http.NewRequest at hr
  dsimp only at hr
  generalize (if method = "" then "GET" else method) = m at hr ⊢
  cases hv : http.validMethod m with
  | false => simp [hv] at hr
  | true =>
    cases hu : lib.parseURL url with
    | error err => simp [hv, hu] at hr
    | ok u =>
      simp only [hv, hu, Bool.not_true, Bool.false_eq_true, if_false, Except.ok.injEq] at hr
      exact ⟨u, rfl, hr.symm⟩

/-- C8, amended: for every Options `o` for which request construction succeeds, the
request returned by `o.ToRequest()` carries the method `o.Method`, or `GET` when
`o.Method` is empty, the URL parsed from `o.URL` and the body `o.Body`, and its
header mapping is exactly `o.Headers.Parse()`, nothing more and nothing less:
whatever the constructor returns, only its header mapping is replaced.  A run with
a URL and a body sends exactly this request; so with headers `"X-Test=1"` the
request sent carries the header `X-Test` with the single value `1`. -/
theorem ToRequest_request (lib : http.Library) (o : Options) (r : Request)
    (hr : http.NewRequest lib o.Method o.URL o.Body = .ok r) :
    (∃ u, lib.parseURL o.URL = .ok u ∧
      o.ToRequest (http.NewRequest lib)
        = .ok { Method := if o.Method = "" then "GET" else o.Method, URL := u,
                Body := o.Body, Header := o.Headers.Parse }) ∧
    (∀ (NewRequest : String → String → Bytes → Except String Request) (r1 : Request),
      NewRequest o.Method o.URL o.Body = .ok r1 →
      o.ToRequest NewRequest
        = .ok { Method := r1.Method, URL := r1.URL, Body := r1.Body,
                Header := o.Headers.Parse }) ∧
    (∀ (flags : Flags) (url : String) (rest : List String) (w : World) (body : Bytes)
        (r0 : Request),
      (flags.stdin = true ∧ w.stdin.2 = none ∧ body = w.stdin.1) ∨
        (flags.stdin = false ∧ body = flags.body.toUTF8.data.toList) →
      w.NewRequest flags.method url body = .ok r0 →
      (main flags (url :: rest) w).sent
        = [{ Method := r0.Method, URL := r0.URL, Body := r0.Body,
             Header := Headers.Parse (NewHeaders flags.headers) }]) ∧
    Headers.Parse (NewHeaders "\"X-Test=1\"") = [("X-Test", ["1"])] ∧
    (Headers.Parse (NewHeaders "\"X-Test=1\"")).Values "X-Test" = ["1"] := by
  refine ⟨?_, fun NewRequest r1 h1 => ToRequest_ok NewRequest o r1 h1,
    fun flags url rest w body r0 hb hn => main_sent_eq flags url rest w body r0 hb hn,
    by decide, by decide⟩
  obtain ⟨u, hu, hreq⟩ := NewRequest_eq_ok lib o.Method o.URL o.Body r hr
  refine ⟨u, hu, ?_⟩
  rw [ToRequest_ok (http.NewRequest lib) o r hr, hreq]

/-- C8, amended, at the method `POST`, the URL `http://h`, the body `hi` and the
headers `"X-Test=1"`, over the sample library; and the run of the program with the
method `GET`, these headers and no body, which sends one request, with the header
`X-Test` of value `1` alone. -/
theorem ToRequest_request_witness :
    ((∃ u, http.Library.sample.parseURL "http://h" = .ok u ∧
      Options.ToRequest (http.NewRequest http.Library.sample)
          { Method := "POST", URL := "http://h", Body := [104, 105],
            Headers := NewHeaders "\"X-Test=1\"" }
        = .ok { Method := "POST", URL := u, Body := [104, 105],
                Header := [("X-Test", ["1"])] })) ∧
    (main { method := "GET", headers := "\"X-Test=1\"", body := "", stdin := false }
        ["http://h"] World.plain).sent
      = [{ Method := "GET", URL := "http://h", Body := [],
           Header := [("X-Test", ["1"])] }] :=
  ⟨(ToRequest_request http.Library.sample
      { Method := "POST", URL := "http://h", Body := [104, 105],
        Headers := NewHeaders "\"X-Test=1\"" }
      { Method := "POST", URL := "http://h", Body := [104, 105], Header := [] }
      (by simp [http.NewRequest, http.validMethod, http.Library.sample]; decide)).1,
   (ToRequest_request http.Library.sample
      { Method := "POST", URL := "http://h", Body := [104, 105],
        Headers := NewHeaders "\"X-Test=1\"" }
      { Method := "POST", URL := "http://h", Body := [104, 105], Header := [] }
      (by simp [http.NewRequest, http.validMethod, http.Library.sample]; decide)).2.2.1
      { method := "GET", headers := "\"X-Test=1\"", body := "", stdin := false }
      "http://h" [] World.plain []
      { Method := "GET", URL := "http://h", Body := [], Header := [] }
      (Or.inr ⟨rfl, rfl⟩)
      (by simp [World.plain, http.NewRequest, http.validMethod, http.Library.sample]; decide)⟩

/-- C8 as stated fails: for the options with an empty method (`-method ""`), the URL
`http://h` and the headers `"X-Test=1"`, request construction succeeds and the
request returned carries the method `GET`, not the method `o.Method`, which is
empty; so it is for every library that parses the URL. -/
theorem ToRequest_request_counterexample :
    Options.ToRequest (http.NewRequest http.Library.sample)
        { Method := "", URL := "http://h", Body := [], Headers := NewHeaders "\"X-Test=1\"" }
      = .ok { Method := "GET", URL := "http://h", Body := [],
              Header := [("X-Test", ["1"])] } ∧
    ("GET" : String) ≠ "" ∧
    (∀ (lib : http.Library) (u : String), lib.parseURL "http://h" = .ok u →
      Options.ToRequest (http.NewRequest lib)
          { Method := "", URL := "http://h", Body := [],
            Headers := NewHeaders "\"X-Test=1\"" }
        = .ok { Method := "GET", URL := u, Body := [], Header := [("X-Test", ["1"])] }) := by
  have hvalid : http.validMethod "GET" = true := by decide
  have hparse : Headers.Parse (NewHeaders "\"X-Test=1\"") = [("X-Test", ["1"])] := by decide
  have hgen : ∀ (lib : http.Library) (u : String), lib.parseURL "http://h" = .ok u →
      Options.ToRequest (http.NewRequest lib)
          { Method := "", URL := "http://h", Body := [],
            Headers := NewHeaders "\"X-Test=1\"" }
        = .ok { Method := "GET", URL := u, Body := [], Header := [("X-Test", ["1"])] } := by
    intro lib u hu
    have hn : http.NewRequest lib "" "http://h" [] 
        = .ok { Method := "GET", URL := u, Body := [], Header := [] } := by
      simp [http.NewRequest, hvalid, hu]
    rw [ToRequest_ok (http.NewRequest lib) _ _ hn, hparse]
  exact ⟨hgen http.Library.sample "http://h" (by simp [http.Library.sample]), by decide, hgen⟩

/-- C9: failure to construct the request is fatal.  For every Options `o`,
`o.ToRequest()` panics if and only if the constructor reports an error for
`(o.Method, o.URL, o.Body)`; the panic carries the diagnostic
`Could not create request from options: <error>`, no request is returned, and a run
in which this happens ends with that panic and sends no request.  When the
constructor succeeds `ToRequest` returns a request. -/
theorem ToRequest_fatal (NewRequest : String → String → Bytes → Except String Request)
    (o : Options) :
    ((∃ p, o.ToRequest NewRequest = .error p) ↔
      ∃ err, NewRequest o.Method o.URL o.Body = .error err) ∧
    (∀ err, NewRequest o.Method o.URL o.Body = .error err →
      o.ToRequest NewRequest
        = .error ("Could not create request from options: " ++ err)) ∧
    (∀ r, NewRequest o.Method o.URL o.Body = .ok r → ∃ q, o.ToRequest NewRequest = .ok q) ∧
    (∀ (flags : Flags) (args : List String) (w : World) (o1 : Options) (err : String),
      o1 ∈ (main flags args w).handedToRequest →
      w.NewRequest o1.Method o1.URL o1.Body = .error err →
      (main flags args w).exit
        = .panic ("Could not create request from options: " ++ err) ∧
      (main flags args w).sent = []) := by
  refine ⟨?_, fun err he => ToRequest_error NewRequest o err he,
    fun r hr => ⟨_, ToRequest_ok NewRequest o r hr⟩,
    fun flags args w o1 err ho hn => main_constructor_error flags args w o1 err ho hn⟩
  constructor
  · rintro ⟨p, hp⟩
    cases hn : NewRequest o.Method o.URL o.Body with
    | error err => exact ⟨err, rfl⟩
    | ok r =>
      rw [ToRequest_ok NewRequest o r hn] at hp
      cases hp
  · rintro ⟨err, he⟩
    exact ⟨_, ToRequest_error NewRequest o err he⟩

/-- C9 at the method `GE T`, which the constructor of the sample surroundings
refuses: `ToRequest` panics with the diagnostic, and the run sends nothing. -/
theorem ToRequest_fatal_witness :
    Options.ToRequest World.sample.NewRequest
        { Method := "GE T", URL := "http://h", Body := [], Headers := [] }
      = .error "Could not create request from options: net/http: invalid method GE T" ∧
    (main { Flags.defaults with method := "GE T" } ["http://h"] World.sample).exit
      = .panic "Could not create request from options: net/http: invalid method GE T" ∧
    (main { Flags.defaults with method := "GE T" } ["http://h"] World.sample).sent = [] :=
  ⟨(ToRequest_fatal World.sample.NewRequest
      { Method := "GE T", URL := "http://h", Body := [], Headers := [] }).2.1
      "net/http: invalid method GE T" (by simp [World.sample]),
   (ToRequest_fatal World.sample.NewRequest
      { Method := "GE T", URL := "http://h", Body := [], Headers := [] }).2.2.2
      { Flags.defaults with method := "GE T" } ["http://h"] World.sample
      { Method := "GE T", URL := "http://h", Body := bytesOf "",
        Headers := NewHeaders "\"Content-Type=application/json\"" }
      "net/http: invalid method GE T"
      (by decide)
      (by simp [World.sample])⟩

end Gcurl
